import Mathlib

set_option autoImplicit false

/-!
Shallow embedding of the archived `IndexMap` implementation
(`src/rkyv/src/impls/indexmap.rs`).

The archived map is modelled over plain Lean types: the entries array
behind the `entries` relative pointer becomes a `List (Entry K V)`, the
pivot array becomes a `List Nat`, and the external hash-index
collaborator (`ArchivedHashIndex`, whose code is outside `src/`) is
modelled from the spec as an abstract lookup function together with its
occupied-slot count.  Unsafe raw-pointer reads that are undefined
behaviour for out-of-range indices in the source are modelled by
`Option`-returning lookups (with the out-of-range case noted at each
site).  Fallible serialization is modelled in the `Except` monad.
-/

/-- Entry layout from the source: one key/value pair, key first. -/
structure Entry (K V : Type) where
  key : K
  value : V
deriving DecidableEq

/-- Modelled from the spec: the external hash-index collaborator
`ArchivedHashIndex` (its code is not under `src/`).  Per the spec it is an
opaque table exposing `index(key) -> Option<slot>` resolving a hashed key
to a candidate occupied slot, and `len()`, the occupied-slot count; it
stores no keys, so a returned slot is a candidate, not a guaranteed
match. -/
structure ArchivedHashIndex (K : Type) where
  index : K → Option Nat
  len : Nat

/-- The archived map structure from the source: the embedded hash index, a
relative pointer to the pivot array and a relative pointer to the entries
array (the two arrays are modelled by the lists they point at). -/
structure ArchivedIndexMap (K V : Type) where
  index : ArchivedHashIndex K
  pivots : List Nat
  entries : List (Entry K V)

namespace ArchivedIndexMap

variable {K V : Type}

/-- Embedding of the private `pivot` accessor: unchecked read of pivot
`i`.  An out-of-range `i` is undefined behaviour in the source (raw
pointer arithmetic); it is modelled by the default value `0`. -/
def pivot (m : ArchivedIndexMap K V) (i : Nat) : Nat :=
  m.pivots.getD i 0

/-- Embedding of the private `entry` accessor: unchecked read of entry
`i`.  An out-of-range `i` is undefined behaviour in the source; it is
modelled by `none`. -/
def entry? (m : ArchivedIndexMap K V) (i : Nat) : Option (Entry K V) :=
  m.entries[i]?

/-- Embedding of the private `find` routine: ask the hash index for a
candidate slot, dereference the pivot to an entry position, and keep the
position only when that entry's stored key equals the query key. -/
def find [DecidableEq K] (m : ArchivedIndexMap K V) (k : K) : Option Nat :=
  (m.index.index k).bind fun pivotIndex =>
    let index := m.pivot pivotIndex
    match m.entry? index with
    | none => none
    | some entry => if entry.key = k then some index else none

/-- Embedding of `contains_key`. -/
def contains_key [DecidableEq K] (m : ArchivedIndexMap K V) (k : K) : Bool :=
  (m.find k).isSome

/-- Embedding of `len`: the hash index's occupied-slot count. -/
def len (m : ArchivedIndexMap K V) : Nat :=
  m.index.len

/-- Embedding of `is_empty`. -/
def is_empty (m : ArchivedIndexMap K V) : Bool :=
  m.len = 0

/-- Embedding of `first`: entry 0 when the map is non-empty. -/
def first (m : ArchivedIndexMap K V) : Option (K × V) :=
  if 0 < m.len then (m.entry? 0).map fun e => (e.key, e.value) else none

/-- Embedding of `get`: dereference the found position to its value.  The
source maps over `find`'s result and dereferences unconditionally; `find`
only returns positions whose entry read succeeded, so the extra `bind`
here collapses to that map. -/
def get [DecidableEq K] (m : ArchivedIndexMap K V) (k : K) : Option V :=
  (m.find k).bind fun index => (m.entry? index).map Entry.value

/-- Embedding of `get_full`: index, key and value for the found position. -/
def get_full [DecidableEq K] (m : ArchivedIndexMap K V) (k : K) :
    Option (Nat × K × V) :=
  (m.find k).bind fun index =>
    (m.entry? index).map fun entry => (index, entry.key, entry.value)

/-- Embedding of `get_index`: bounds-checked positional access against
`len` followed by an unchecked entry read. -/
def get_index (m : ArchivedIndexMap K V) (index : Nat) : Option (K × V) :=
  if index < m.len then (m.entry? index).map fun e => (e.key, e.value)
  else none

/-- Embedding of `get_index_of`: the position returned by `find`. -/
def get_index_of [DecidableEq K] (m : ArchivedIndexMap K V) (key : K) :
    Option Nat :=
  (m.find key).map fun index => index

/-- Embedding of `get_key_value`. -/
def get_key_value [DecidableEq K] (m : ArchivedIndexMap K V) (k : K) :
    Option (K × V) :=
  (m.find k).bind fun index =>
    (m.entry? index).map fun entry => (entry.key, entry.value)

end ArchivedIndexMap

/-- Iterator state of `RawIter`: `entries` is the array the `current`
pointer walks (the pointer is modelled as an index into it), and
`remaining` is the countdown the source decrements on every step. -/
structure RawIter (K V : Type) where
  entries : List (Entry K V)
  current : Nat
  remaining : Nat

namespace RawIter

variable {K V : Type}

/-- Embedding of `RawIter::new`: start at the first entry with `len`
elements remaining. -/
def new (pairs : List (Entry K V)) (len : Nat) : RawIter K V :=
  ⟨pairs, 0, len⟩

/-- Embedding of `RawIter::next`, returning the yielded item together
with the mutated iterator (Rust mutates `self` in place).  When
`remaining` is zero the state is returned unchanged, exactly as the
source leaves `self` untouched.  A read past the end of the entries array
is undefined behaviour in the source (it can only happen when `remaining`
exceeds the array length); it is modelled by yielding `none` with the
state unchanged. -/
def next (it : RawIter K V) : Option (K × V) × RawIter K V :=
  if it.remaining = 0 then (none, it)
  else
    match it.entries[it.current]? with
    | none => (none, it)
    | some e => (some (e.key, e.value), ⟨it.entries, it.current + 1, it.remaining - 1⟩)

/-- Embedding of `RawIter::size_hint`: `(remaining, Some(remaining))`. -/
def size_hint (it : RawIter K V) : Nat × Option Nat :=
  (it.remaining, some it.remaining)

end RawIter

/-- Fuel-indexed unfolding of `RawIter::next` used to talk about the full
sequence an iterator yields: read from position `c` while the countdown
lasts and the array has elements. -/
def rawIterSeq {K V : Type} (entries : List (Entry K V)) : Nat → Nat → List (K × V)
  | _, 0 => []
  | c, r + 1 =>
    match entries[c]? with
    | none => []
    | some e => (e.key, e.value) :: rawIterSeq entries (c + 1) r

/-- The full sequence of items a `RawIter` yields when driven to
exhaustion by repeated `next` calls. -/
def RawIter.toList {K V : Type} (it : RawIter K V) : List (K × V) :=
  rawIterSeq it.entries it.current it.remaining


/-- Embedding of the public `Iter` wrapper around `RawIter`. -/
structure Iter (K V : Type) where
  inner : RawIter K V

/-- Embedding of `Iter::next`: delegates to the raw iterator. -/
def Iter.next {K V : Type} (it : Iter K V) : Option (K × V) × Iter K V :=
  let s := it.inner.next
  (s.1, ⟨s.2⟩)

/-- Embedding of `Iter::size_hint`: delegates to the raw iterator. -/
def Iter.size_hint {K V : Type} (it : Iter K V) : Nat × Option Nat :=
  it.inner.size_hint

/-- Embedding of the public `Keys` wrapper around `RawIter`. -/
structure Keys (K V : Type) where
  inner : RawIter K V

/-- Embedding of `Keys::next`: the raw item's key component. -/
def Keys.next {K V : Type} (it : Keys K V) : Option K × Keys K V :=
  let s := it.inner.next
  (s.1.map Prod.fst, ⟨s.2⟩)

/-- Embedding of `Keys::size_hint`: delegates to the raw iterator. -/
def Keys.size_hint {K V : Type} (it : Keys K V) : Nat × Option Nat :=
  it.inner.size_hint

/-- Embedding of the public `Values` wrapper around `RawIter`. -/
structure Values (K V : Type) where
  inner : RawIter K V

/-- Embedding of `Values::next`: the raw item's value component. -/
def Values.next {K V : Type} (it : Values K V) : Option V × Values K V :=
  let s := it.inner.next
  (s.1.map Prod.snd, ⟨s.2⟩)

/-- Embedding of `Values::size_hint`: delegates to the raw iterator. -/
def Values.size_hint {K V : Type} (it : Values K V) : Nat × Option Nat :=
  it.inner.size_hint

namespace ArchivedIndexMap

variable {K V : Type}

/-- Embedding of the private `raw_iter`: an iterator over the entries
array with `len` elements remaining. -/
def raw_iter (m : ArchivedIndexMap K V) : RawIter K V :=
  RawIter.new m.entries m.len

/-- Embedding of `iter`. -/
def iter (m : ArchivedIndexMap K V) : Iter K V :=
  ⟨m.raw_iter⟩

/-- Embedding of `keys`. -/
def keys (m : ArchivedIndexMap K V) : Keys K V :=
  ⟨m.raw_iter⟩

/-- Embedding of `values`. -/
def values (m : ArchivedIndexMap K V) : Values K V :=
  ⟨m.raw_iter⟩

/-- The full (key, value) sequence produced by `iter()`. -/
def iterList (m : ArchivedIndexMap K V) : List (K × V) :=
  m.raw_iter.toList

end ArchivedIndexMap

/-- Embedding of `Iterator::eq` as used by `PartialEq for
ArchivedIndexMap`: ordered position-by-position comparison that only
succeeds when both sequences end together. -/
def iterPairsEq {K V : Type} [DecidableEq K] [DecidableEq V] :
    List (K × V) → List (K × V) → Bool
  | [], [] => true
  | p :: ps, q :: qs => (decide (p.1 = q.1) && decide (p.2 = q.2)) && iterPairsEq ps qs
  | _, _ => false

/-- Embedding of `PartialEq for ArchivedIndexMap` (archived vs archived):
`self.iter().eq(other.iter())`. -/
def ArchivedIndexMap.beqArchived {K V : Type} [DecidableEq K] [DecidableEq V]
    (a b : ArchivedIndexMap K V) : Bool :=
  iterPairsEq a.iterList b.iterList

/-- Embedding of `PartialEq<IndexMap<UK, UV>> for ArchivedIndexMap`
(archived vs mutable source map, the mutable map modelled by its
insertion-ordered pair sequence):
`self.iter().zip(other.iter()).all(|((ak, av), (bk, bv))| ak == bk && av == bv)`. -/
def ArchivedIndexMap.beqIndexMap {K V : Type} [DecidableEq K] [DecidableEq V]
    (a : ArchivedIndexMap K V) (other : List (K × V)) : Bool :=
  (a.iterList.zip other).all fun pq => decide (pq.1.1 = pq.2.1) && decide (pq.1.2 = pq.2.2)

/-- Modelled from the spec: the mutable ordered source map collaborator
(the `indexmap` crate, outside `src/`) is a sequence of (key, value)
pairs in insertion order with unique keys; `get_index_of` returns a
key's insertion position. -/
def srcGetIndexOf {K V : Type} [DecidableEq K] : List (K × V) → K → Option Nat
  | [], _ => none
  | kv :: rest, k => if kv.1 = k then some 0 else (srcGetIndexOf rest k).map (· + 1)

/-- Modelled from the spec: the mutable source map collaborator's
`insert` — when the key is already present its value is replaced in
place (position kept), otherwise the pair is appended at the end. -/
def srcInsert {K V : Type} [DecidableEq K] (l : List (K × V)) (k : K) (v : V) :
    List (K × V) :=
  if k ∈ l.map Prod.fst then l.map fun p => if p.1 = k then (k, v) else p
  else l ++ [(k, v)]

/-- Embedding of `collect::<Result<Vec<_>, _>>()` over a fallible map:
apply `f` left to right, stopping at the first error. -/
def collectResults {A B E : Type} (f : A → Except E B) : List A → Except E (List B)
  | [] => .ok []
  | a :: rest => do
    let b ← f a
    let bs ← collectResults f rest
    pure (b :: bs)

/-- Left-to-right `Option`-collecting map, used to model the pivot loop:
`none` at any element models the `unwrap()` panic there. -/
def collectOptions {A B : Type} (f : A → Option B) : List A → Option (List B)
  | [] => some []
  | a :: rest =>
    match f a with
    | none => none
    | some b => (collectOptions f rest).map fun bs => b :: bs

/-- One step of the entry-serialization loop: serialize the key, then the
value, as in `(key.serialize(serializer)?, value.serialize(serializer)?)`. -/
def serEntry {K V AK AV E : Type} (serK : K → Except E AK) (serV : V → Except E AV)
    (kv : K × V) : Except E (AK × AV) := do
  let rk ← serK kv.1
  let rv ← serV kv.2
  pure (rk, rv)

/-- One step of the deserialization loop: deserialize the key, then the
value. -/
def deEntry {K V AK AV E : Type} (deK : AK → Except E K) (deV : AV → Except E V)
    (kv : AK × AV) : Except E (K × V) := do
  let k ← deK kv.1
  let v ← deV kv.2
  pure (k, v)

/-- Embedding of `<IndexMap as Serialize>::serialize` composed with the
`resolve` step that assembles the archived value.  `build` is the result
of the hash-index collaborator's `build_and_serialize` (modelled from the
spec, since its code is outside `src/`): the resolved index's lookup
function paired with the keys in slot-occupation order; its `?` in the
source propagates a collaborator error.  Entries are then serialized in
insertion order; the pivot loop writes `self.get_index_of(key).unwrap()`
for each slot-order key, and an absent key's `unwrap()` panic is modelled
by the `.ok none` outcome.  Per the spec, `resolve_from_len(self.len(), ..)`
embeds the hash index with the source map's length, and the two relative
pointers tie in the pivot and entries arrays. -/
def serializeIndexMap {K V AK AV E : Type} [DecidableEq K]
    (build : Except E ((AK → Option Nat) × List K))
    (serK : K → Except E AK) (serV : V → Except E AV)
    (m : List (K × V)) : Except E (Option (ArchivedIndexMap AK AV)) := do
  let bs ← build
  let resolvers ← collectResults (serEntry serK serV) m
  let entries := resolvers.map fun r => Entry.mk r.1 r.2
  match collectOptions (srcGetIndexOf m) bs.2 with
  | none => pure none
  | some pivots => pure (some ⟨⟨bs.1, m.length⟩, pivots, entries⟩)

/-- The `for (k, v) in self.iter()` loop of `deserialize`: deserialize
each pair and insert it into the accumulating mutable map, propagating
the first error. -/
def deserializeLoop {K V AK AV E : Type} [DecidableEq K]
    (deK : AK → Except E K) (deV : AV → Except E V) :
    List (AK × AV) → List (K × V) → Except E (List (K × V))
  | [], result => .ok result
  | kv :: rest, result => do
    let k ← deK kv.1
    let v ← deV kv.2
    deserializeLoop deK deV rest (srcInsert result k v)

/-- Embedding of `<ArchivedIndexMap as Deserialize>::deserialize`: walk
`iter()` in order, inserting each deserialized pair into a freshly
created mutable map. -/
def ArchivedIndexMap.deserialize {K V AK AV E : Type} [DecidableEq K]
    (a : ArchivedIndexMap AK AV)
    (deK : AK → Except E K) (deV : AV → Except E V) : Except E (List (K × V)) :=
  deserializeLoop deK deV a.iterList []
-- helper lemma layer, part 1: iterator sequences

theorem exbind_ok {A B E : Type} (a : A) (f : A → Except E B) :
    (Except.ok a >>= f) = f a := rfl

theorem exbind_error {A B E : Type} (e : E) (f : A → Except E B) :
    ((Except.error e : Except E A) >>= f : Except E B) = .error e := rfl

theorem rawIterSeq_eq {K V : Type} (entries : List (Entry K V)) :
    ∀ (r c : Nat),
      rawIterSeq entries c r
        = ((entries.drop c).take r).map fun e => (e.key, e.value) := by
  intro r
  induction r with
  | zero => intro c; simp [rawIterSeq]
  | succ n ih =>
    intro c
    rw [rawIterSeq]
    cases h : entries[c]? with
    | none =>
      have hlen : entries.length ≤ c := by
        simpa using List.getElem?_eq_none_iff.mp h
      simp [List.drop_eq_nil_of_le hlen]
    | some e =>
      have hc : c < entries.length := by
        by_contra hc
        simp [List.getElem?_eq_none (by omega : entries.length ≤ c)] at h
      have hdrop : entries.drop c = entries[c] :: entries.drop (c + 1) :=
        List.drop_eq_getElem_cons hc
      have he : entries[c] = e := by
        have := List.getElem?_eq_getElem hc
        rw [this] at h
        exact Option.some.injEq _ _ ▸ (by simpa using h)
      rw [hdrop, he, ih (c + 1)]
      simp

theorem RawIter.toList_eq {K V : Type} (it : RawIter K V) :
    it.toList = ((it.entries.drop it.current).take it.remaining).map
      fun e => (e.key, e.value) :=
  rawIterSeq_eq it.entries it.remaining it.current

theorem iterList_eq {K V : Type} (m : ArchivedIndexMap K V) :
    m.iterList = (m.entries.take m.len).map fun e => (e.key, e.value) := by
  rw [ArchivedIndexMap.iterList, ArchivedIndexMap.raw_iter, RawIter.new,
    RawIter.toList_eq]
  rfl

theorem iterList_eq_entries {K V : Type} (m : ArchivedIndexMap K V)
    (h : m.len = m.entries.length) :
    m.iterList = m.entries.map fun e => (e.key, e.value) := by
  rw [iterList_eq, h, List.take_length]

-- helper lemma layer, part 2: equality rules and source-map operations

theorem iterPairsEq_eq_true_iff {K V : Type} [DecidableEq K] [DecidableEq V] :
    ∀ (l₁ l₂ : List (K × V)), iterPairsEq l₁ l₂ = true ↔ l₁ = l₂ := by
  intro l₁
  induction l₁ with
  | nil => intro l₂; cases l₂ <;> simp [iterPairsEq]
  | cons p ps ih =>
    intro l₂
    cases l₂ with
    | nil => simp [iterPairsEq]
    | cons q qs =>
      rw [iterPairsEq]
      constructor
      · intro h
        simp only [Bool.and_eq_true, decide_eq_true_eq] at h
        obtain ⟨⟨h1, h2⟩, h3⟩ := h
        have : ps = qs := (ih qs).mp h3
        cases p; cases q
        simp_all
      · intro h
        cases h
        simp [Prod.ext_iff, (ih ps).mpr rfl]

theorem zip_all_eq_true_iff {A B : Type} (p : A × B → Bool) :
    ∀ (l₁ : List A) (l₂ : List B),
      ((l₁.zip l₂).all p = true
        ↔ ∀ (i : Nat) (a : A) (b : B), l₁[i]? = some a → l₂[i]? = some b → p (a, b) = true) := by
  intro l₁
  induction l₁ with
  | nil => intro l₂; simp
  | cons a as ih =>
    intro l₂
    cases l₂ with
    | nil => simp
    | cons b bs =>
      simp only [List.zip_cons_cons, List.all_cons, Bool.and_eq_true, ih bs]
      constructor
      · rintro ⟨hab, h⟩ i x y hx hy
        cases i with
        | zero =>
          simp only [List.getElem?_cons_zero, Option.some.injEq] at hx hy
          cases hx; cases hy; exact hab
        | succ j =>
          simp only [List.getElem?_cons_succ] at hx hy
          exact h j x y hx hy
      · intro h
        refine ⟨h 0 a b (by simp) (by simp), fun j x y hx hy => ?_⟩
        exact h (j + 1) x y (by simpa using hx) (by simpa using hy)

theorem srcGetIndexOf_lt {K V : Type} [DecidableEq K] :
    ∀ (m : List (K × V)) (k : K) (i : Nat),
      srcGetIndexOf m k = some i → i < m.length := by
  intro m
  induction m with
  | nil => intro k i h; simp [srcGetIndexOf] at h
  | cons kv rest ih =>
    intro k i h
    rw [srcGetIndexOf] at h
    by_cases hk : kv.1 = k
    · simp only [hk, if_true, Option.some.injEq] at h
      subst h
      simp
    · simp only [hk, if_false, Option.map_eq_some'] at h
      obtain ⟨j, hj, rfl⟩ := h
      have := ih k j hj
      simp
      omega

theorem srcGetIndexOf_getElem {K V : Type} [DecidableEq K] :
    ∀ (m : List (K × V)) (k : K) (i : Nat),
      srcGetIndexOf m k = some i → ∃ v, m[i]? = some (k, v) := by
  intro m
  induction m with
  | nil => intro k i h; simp [srcGetIndexOf] at h
  | cons kv rest ih =>
    intro k i h
    rw [srcGetIndexOf] at h
    by_cases hk : kv.1 = k
    · simp only [hk, if_true, Option.some.injEq] at h
      cases h
      exact ⟨kv.2, by simp [← hk]⟩
    · simp only [hk, if_false, Option.map_eq_some'] at h
      obtain ⟨j, hj, rfl⟩ := h
      obtain ⟨v, hv⟩ := ih k j hj
      exact ⟨v, by simpa using hv⟩

theorem srcGetIndexOf_isSome_of_mem {K V : Type} [DecidableEq K] :
    ∀ (m : List (K × V)) (k : K), k ∈ m.map Prod.fst →
      ∃ i, srcGetIndexOf m k = some i := by
  intro m
  induction m with
  | nil => intro k h; simp at h
  | cons kv rest ih =>
    intro k h
    rw [srcGetIndexOf]
    by_cases hk : kv.1 = k
    · exact ⟨0, by simp [hk]⟩
    · simp only [List.map_cons, List.mem_cons] at h
      rcases h with h | h
      · exact absurd h.symm hk
      · obtain ⟨j, hj⟩ := ih k h
        exact ⟨j + 1, by simp [hk, hj]⟩

theorem srcInsert_of_not_mem {K V : Type} [DecidableEq K]
    (l : List (K × V)) (k : K) (v : V) (h : k ∉ l.map Prod.fst) :
    srcInsert l k v = l ++ [(k, v)] := by
  simp [srcInsert, h]

-- helper lemma layer, part 3: fallible loops

/-- Whether an `Except` computation succeeded. -/
def exOk {E A : Type} : Except E A → Bool
  | .ok _ => true
  | .error _ => false

theorem exOk_ok {E A : Type} (a : A) : exOk (.ok a : Except E A) = true := rfl

theorem exOk_eq_true_iff {E A : Type} (x : Except E A) :
    exOk x = true ↔ ∃ a, x = .ok a := by
  cases x <;> simp [exOk]

theorem collectResults_map_ok {A B E : Type} (f : A → Except E B) (g : A → B)
    (hf : ∀ a, f a = .ok (g a)) :
    ∀ l : List A, collectResults f l = .ok (l.map g) := by
  intro l
  induction l with
  | nil => rfl
  | cons a rest ih =>
    rw [collectResults, hf a, exbind_ok, ih, exbind_ok]
    rfl

theorem collectResults_ok_pointwise {A B E : Type} (f : A → Except E B) :
    ∀ (l : List A) (bs : List B), collectResults f l = .ok bs →
      bs.length = l.length ∧
        ∀ (i : Nat) (a : A), l[i]? = some a →
          ∃ b, bs[i]? = some b ∧ f a = .ok b := by
  intro l
  induction l with
  | nil =>
    intro bs h
    rw [collectResults] at h
    cases h
    simp
  | cons a rest ih =>
    intro bs h
    rw [collectResults] at h
    cases hfa : f a with
    | error e => rw [hfa, exbind_error] at h; cases h
    | ok b =>
      rw [hfa, exbind_ok] at h
      cases hrest : collectResults f rest with
      | error e => rw [hrest, exbind_error] at h; cases h
      | ok tail =>
        rw [hrest, exbind_ok] at h
        cases h
        obtain ⟨hlen, hpt⟩ := ih tail hrest
        refine ⟨by simp [hlen], fun i x hx => ?_⟩
        cases i with
        | zero =>
          simp only [List.getElem?_cons_zero, Option.some.injEq] at hx
          cases hx
          exact ⟨b, by simp, hfa⟩
        | succ j =>
          simp only [List.getElem?_cons_succ] at hx ⊢
          exact hpt j x hx

theorem collectResults_error_at {A B E : Type} (f : A → Except E B) :
    ∀ (l : List A) (i : Nat) (a : A) (e : E),
      exOk (collectResults f (l.take i)) = true →
      l[i]? = some a → f a = .error e →
      collectResults f l = .error e := by
  intro l
  induction l with
  | nil => intro i a e _ ha _; simp at ha
  | cons x rest ih =>
    intro i a e hok ha hfa
    cases i with
    | zero =>
      simp only [List.getElem?_cons_zero, Option.some.injEq] at ha
      cases ha
      rw [collectResults, hfa, exbind_error]
    | succ j =>
      simp only [List.getElem?_cons_succ] at ha
      rw [List.take_succ_cons, collectResults] at hok
      cases hfx : f x with
      | error e' => rw [hfx, exbind_error] at hok; cases hok
      | ok b =>
        rw [hfx, exbind_ok] at hok
        cases hrest : collectResults f (rest.take j) with
        | error e' => rw [hrest, exbind_error] at hok; cases hok
        | ok tail =>
          have : collectResults f rest = .error e :=
            ih j a e (by rw [hrest]; rfl) ha hfa
          rw [collectResults, hfx, exbind_ok, this, exbind_error]

theorem collectOptions_some_of_all {A B : Type} (f : A → Option B) :
    ∀ l : List A, (∀ a ∈ l, ∃ b, f a = some b) →
      ∃ bs, collectOptions f l = some bs := by
  intro l
  induction l with
  | nil => intro _; exact ⟨[], rfl⟩
  | cons a rest ih =>
    intro h
    obtain ⟨b, hb⟩ := h a (by simp)
    obtain ⟨bs, hbs⟩ := ih fun x hx => h x (by simp [hx])
    exact ⟨b :: bs, by rw [collectOptions, hb, hbs]; rfl⟩

theorem collectOptions_some_pointwise {A B : Type} (f : A → Option B) :
    ∀ (l : List A) (bs : List B), collectOptions f l = some bs →
      bs.length = l.length ∧
        ∀ (j : Nat) (a : A), l[j]? = some a →
          ∃ b, bs[j]? = some b ∧ f a = some b := by
  intro l
  induction l with
  | nil =>
    intro bs h
    rw [collectOptions] at h
    cases h
    simp
  | cons a rest ih =>
    intro bs h
    rw [collectOptions] at h
    cases hfa : f a with
    | none => rw [hfa] at h; cases h
    | some b =>
      rw [hfa] at h
      cases hrest : collectOptions f rest with
      | none => rw [hrest] at h; cases h
      | some tail =>
        rw [hrest] at h
        simp only [Option.map_some', Option.some.injEq] at h
        cases h
        obtain ⟨hlen, hpt⟩ := ih tail hrest
        refine ⟨by simp [hlen], fun j x hx => ?_⟩
        cases j with
        | zero =>
          simp only [List.getElem?_cons_zero, Option.some.injEq] at hx
          cases hx
          exact ⟨b, by simp, hfa⟩
        | succ j' =>
          simp only [List.getElem?_cons_succ] at hx ⊢
          exact hpt j' x hx

-- helper lemma layer, part 4: the deserialization loop

theorem deEntry_ok_iff {K V AK AV E : Type} (deK : AK → Except E K)
    (deV : AV → Except E V) (kv : AK × AV) (p : K × V) :
    deEntry deK deV kv = .ok p ↔ deK kv.1 = .ok p.1 ∧ deV kv.2 = .ok p.2 := by
  rw [deEntry]
  cases hk : deK kv.1 with
  | error e => rw [exbind_error]; simp
  | ok k =>
    rw [exbind_ok]
    cases hv : deV kv.2 with
    | error e => rw [exbind_error]; simp
    | ok v =>
      rw [exbind_ok]
      cases p
      constructor
      · intro h
        cases h
        exact ⟨rfl, rfl⟩
      · rintro ⟨h1, h2⟩
        cases h1; cases h2
        rfl

theorem deserializeLoop_ok {K V AK AV E : Type} [DecidableEq K]
    (deK : AK → Except E K) (deV : AV → Except E V) (fK : K → AK) (fV : V → AV)
    (hK : ∀ k, deK (fK k) = .ok k) (hV : ∀ v, deV (fV v) = .ok v) :
    ∀ (l acc : List (K × V)), ((acc ++ l).map Prod.fst).Nodup →
      deserializeLoop deK deV (l.map fun kv => (fK kv.1, fV kv.2)) acc
        = .ok (acc ++ l) := by
  intro l
  induction l with
  | nil => intro acc _; simp [deserializeLoop]
  | cons kv rest ih =>
    intro acc hnd
    have hnotmem : kv.1 ∉ acc.map Prod.fst := by
      intro hmem
      rw [List.map_append, List.nodup_append] at hnd
      exact hnd.2.2 hmem (by simp)
    rw [List.map_cons, deserializeLoop, hK kv.1, exbind_ok, hV kv.2, exbind_ok,
      srcInsert_of_not_mem acc kv.1 kv.2 hnotmem]
    have hnd' : (((acc ++ [kv]) ++ rest).map Prod.fst).Nodup := by
      simpa using hnd
    rw [ih (acc ++ [kv]) hnd']
    simp

theorem deserializeLoop_error_at {K V AK AV E : Type} [DecidableEq K]
    (deK : AK → Except E K) (deV : AV → Except E V) :
    ∀ (l : List (AK × AV)) (i : Nat) (kv : AK × AV) (e : E) (acc : List (K × V)),
      exOk (collectResults (deEntry deK deV) (l.take i)) = true →
      l[i]? = some kv → deEntry deK deV kv = .error e →
      deserializeLoop deK deV l acc = .error e := by
  intro l
  induction l with
  | nil => intro i kv e acc _ ha _; simp at ha
  | cons x rest ih =>
    intro i kv e acc hok ha hde
    cases i with
    | zero =>
      simp only [List.getElem?_cons_zero, Option.some.injEq] at ha
      rw [← ha] at hde
      rw [deserializeLoop]
      rw [deEntry] at hde
      cases hk : deK x.1 with
      | error e' =>
        rw [hk, exbind_error] at hde
        cases hde
        rfl
      | ok k =>
        rw [hk, exbind_ok] at hde
        cases hv : deV x.2 with
        | error e' =>
          rw [hv, exbind_error] at hde
          cases hde
          rfl
        | ok v => rw [hv, exbind_ok] at hde; cases hde
    | succ j =>
      simp only [List.getElem?_cons_succ] at ha
      rw [List.take_succ_cons, collectResults] at hok
      cases hx : deEntry deK deV x with
      | error e' => rw [hx, exbind_error] at hok; cases hok
      | ok p =>
        rw [hx, exbind_ok] at hok
        cases hrest : collectResults (deEntry deK deV) (rest.take j) with
        | error e' => rw [hrest, exbind_error] at hok; cases hok
        | ok tail =>
          obtain ⟨h1, h2⟩ := (deEntry_ok_iff deK deV x p).mp hx
          rw [deserializeLoop, h1, exbind_ok, h2, exbind_ok]
          exact ih j kv e _ (by rw [hrest]; rfl) ha hde

-- helper lemma layer, part 5: serialize unfolding and the lookup routine

theorem serializeIndexMap_build_error {K V AK AV E : Type} [DecidableEq K]
    (e : E) (serK : K → Except E AK) (serV : V → Except E AV) (m : List (K × V)) :
    serializeIndexMap (.error e) serK serV m = .error e := rfl

theorem serializeIndexMap_ok_unfold {K V AK AV E : Type} [DecidableEq K]
    (bd : (AK → Option Nat) × List K) (serK : K → Except E AK)
    (serV : V → Except E AV) (m : List (K × V)) (rs : List (AK × AV))
    (ps : List Nat)
    (hser : collectResults (serEntry serK serV) m = .ok rs)
    (hopt : collectOptions (srcGetIndexOf m) bd.2 = some ps) :
    serializeIndexMap (.ok bd) serK serV m
      = .ok (some ⟨⟨bd.1, m.length⟩, ps, rs.map fun r => Entry.mk r.1 r.2⟩) := by
  rw [serializeIndexMap, exbind_ok, hser, exbind_ok, hopt]
  rfl

theorem serializeIndexMap_panic_unfold {K V AK AV E : Type} [DecidableEq K]
    (bd : (AK → Option Nat) × List K) (serK : K → Except E AK)
    (serV : V → Except E AV) (m : List (K × V)) (rs : List (AK × AV))
    (hser : collectResults (serEntry serK serV) m = .ok rs)
    (hopt : collectOptions (srcGetIndexOf m) bd.2 = none) :
    serializeIndexMap (.ok bd) serK serV m = .ok none := by
  rw [serializeIndexMap, exbind_ok, hser, exbind_ok, hopt]
  rfl

theorem serializeIndexMap_entries_error {K V AK AV E : Type} [DecidableEq K]
    (bd : (AK → Option Nat) × List K) (serK : K → Except E AK)
    (serV : V → Except E AV) (m : List (K × V)) (e : E)
    (hser : collectResults (serEntry serK serV) m = .error e) :
    serializeIndexMap (.ok bd) serK serV m = .error e := by
  rw [serializeIndexMap, exbind_ok, hser, exbind_error]

theorem find_eq_some_iff {K V : Type} [DecidableEq K]
    (m : ArchivedIndexMap K V) (k : K) (i : Nat) :
    m.find k = some i
      ↔ ∃ s, m.index.index k = some s ∧ m.pivot s = i
          ∧ ∃ e, m.entry? i = some e ∧ e.key = k := by
  rw [ArchivedIndexMap.find]
  cases hs : m.index.index k with
  | none => simp
  | some s =>
    simp only [Option.some_bind]
    cases he : m.entry? (m.pivot s) with
    | none =>
      constructor
      · intro h; cases h
      · rintro ⟨s', hs', hp, e', he', hk'⟩
        cases hs'
        rw [hp] at he
        rw [he] at he'
        cases he'
    | some entry =>
      by_cases hk : entry.key = k
      · simp only [hk, if_true]
        constructor
        · intro h
          cases h
          exact ⟨s, rfl, rfl, entry, he, hk⟩
        · rintro ⟨s', hs', hp, e', he', hk'⟩
          cases hs'
          rw [hp]
      · simp only [hk, if_false]
        constructor
        · intro h; cases h
        · rintro ⟨s', hs', hp, e', he', hk'⟩
          cases hs'
          rw [hp] at he
          rw [he] at he'
          cases he'
          exact absurd hk' hk

-- helper lemma layer, part 6: lookup misses, positions, iterator stepping

theorem find_eq_none_of_index_none {K V : Type} [DecidableEq K]
    (m : ArchivedIndexMap K V) (k : K) (hs : m.index.index k = none) :
    m.find k = none := by
  rw [ArchivedIndexMap.find, hs]
  rfl

theorem find_eq_none_of_key_ne {K V : Type} [DecidableEq K]
    (m : ArchivedIndexMap K V) (k : K) (s : Nat) (e : Entry K V)
    (hs : m.index.index k = some s) (he : m.entry? (m.pivot s) = some e)
    (hne : e.key ≠ k) : m.find k = none := by
  rw [ArchivedIndexMap.find, hs]
  simp [he, hne]

theorem iterList_keys {K V : Type} (m : ArchivedIndexMap K V)
    (hlen : m.len = m.entries.length) :
    m.iterList.map Prod.fst = m.entries.map Entry.key := by
  rw [iterList_eq_entries m hlen, List.map_map]
  rfl

theorem find_position {K V : Type} [DecidableEq K]
    (m : ArchivedIndexMap K V) (k : K) (i : Nat)
    (hlen : m.len = m.entries.length)
    (hnd : (m.entries.map Entry.key).Nodup)
    (hf : m.find k = some i) :
    (m.iterList.map Prod.fst)[i]? = some k
      ∧ ∀ j : Nat, (m.iterList.map Prod.fst)[j]? = some k → j = i := by
  obtain ⟨s, _, _, e, he, hk⟩ := (find_eq_some_iff m k i).mp hf
  rw [iterList_keys m hlen]
  have hi : (m.entries.map Entry.key)[i]? = some k := by
    rw [ArchivedIndexMap.entry?] at he
    simp [List.getElem?_map, he, hk]
  refine ⟨hi, fun j hj => ?_⟩
  have hilen : i < (m.entries.map Entry.key).length := by
    by_contra hcon
    rw [List.getElem?_eq_none (by omega)] at hi
    cases hi
  have hjlen : j < (m.entries.map Entry.key).length := by
    by_contra hcon
    rw [List.getElem?_eq_none (by omega)] at hj
    cases hj
  exact List.getElem?_inj hjlen hnd (by rw [hi, hj])

-- helper lemma layer, part 7: iterator stepping and positional access

theorem RawIter.toList_step {K V : Type} (it : RawIter K V) :
    it.toList = (match it.next with
      | (none, _) => ([] : List (K × V))
      | (some p, it') => p :: it'.toList) := by
  rw [RawIter.toList, RawIter.next]
  cases hr : it.remaining with
  | zero => simp [rawIterSeq]
  | succ n =>
    simp only [Nat.succ_ne_zero, if_false]
    rw [rawIterSeq]
    cases hc : it.entries[it.current]? with
    | none => simp
    | some e => simp [RawIter.toList]

theorem RawIter.next_none_fused {K V : Type} (it : RawIter K V)
    (h : (RawIter.next it).1 = none) : RawIter.next it = (none, it) := by
  rw [RawIter.next] at h ⊢
  by_cases hr : it.remaining = 0
  · simp [hr]
  · simp only [hr, if_false] at h ⊢
    cases hc : it.entries[it.current]? with
    | none => simp
    | some e => simp [hc] at h

theorem RawIter.toList_length_of_valid {K V : Type} (it : RawIter K V)
    (h : it.current + it.remaining ≤ it.entries.length) :
    it.toList.length = it.remaining := by
  rw [RawIter.toList_eq, List.length_map, List.length_take, List.length_drop]
  omega

theorem getElem?_iterList {K V : Type} (m : ArchivedIndexMap K V) (i : Nat)
    (hi : i < m.len) :
    m.iterList[i]? = (m.entries[i]?).map fun e => (e.key, e.value) := by
  rw [iterList_eq, List.getElem?_map, List.getElem?_take]
  simp [hi]

-- concrete data used by witnesses

/-- Entries of the spec's concrete scenario, with the keys "foo", "bar",
"baz", "bat" encoded as 1, 2, 3, 4. -/
def sampleEntries : List (Entry Nat Nat) := [⟨1, 10⟩, ⟨2, 20⟩, ⟨3, 40⟩, ⟨4, 80⟩]

/-- A hash-index lookup function for `sampleEntries` whose slot order is
3, 1, 4, 2 (deliberately different from insertion order). -/
def sampleIndexFn : Nat → Option Nat
  | 1 => some 1
  | 2 => some 3
  | 3 => some 0
  | 4 => some 2
  | _ => none

/-- A concrete valid archived map over `sampleEntries`. -/
def sampleMap : ArchivedIndexMap Nat Nat :=
  ⟨⟨sampleIndexFn, 4⟩, [2, 0, 3, 1], sampleEntries⟩

/-- Claim C6: for every archived map satisfying the length invariant of a
valid archive and every index i, `get_index i` returns exactly the i-th
(key, value) pair of the `iter()` sequence (which is `Some`) when
`i < len`, and `None` when `i >= len`, with no other effect (the model is
a pure function). -/
theorem c6_get_index_matches_iter {K V : Type} (m : ArchivedIndexMap K V)
    (i : Nat) (hlen : m.len = m.entries.length) :
    (i < m.len → m.get_index i = m.iterList[i]? ∧ (m.iterList[i]?).isSome = true)
    ∧ (m.len ≤ i → m.get_index i = none) := by
  constructor
  · intro hi
    rw [ArchivedIndexMap.get_index, if_pos hi, getElem?_iterList m i hi]
    refine ⟨rfl, ?_⟩
    have hi' : i < m.entries.length := hlen ▸ hi
    simp [List.getElem?_eq_getElem hi']
  · intro hi
    rw [ArchivedIndexMap.get_index, if_neg (by omega)]

/-- Witness for C6: the in-range position 2 and the out-of-range position
9 of the concrete sample map. -/
theorem c6_get_index_matches_iter_witness :
    ((2 < sampleMap.len →
        sampleMap.get_index 2 = sampleMap.iterList[2]?
          ∧ (sampleMap.iterList[2]?).isSome = true)
      ∧ (sampleMap.len ≤ 2 → sampleMap.get_index 2 = none))
    ∧ ((9 < sampleMap.len →
        sampleMap.get_index 9 = sampleMap.iterList[9]?
          ∧ (sampleMap.iterList[9]?).isSome = true)
      ∧ (sampleMap.len ≤ 9 → sampleMap.get_index 9 = none)) :=
  ⟨c6_get_index_matches_iter sampleMap 2 (by decide),
   c6_get_index_matches_iter sampleMap 9 (by decide)⟩

/-- Claim C4: for every archived map of length n satisfying the length
invariant of a valid archive, the sequences produced by `iter()`,
`keys()` and `values()` each yield exactly n elements in the insertion
order of the entries array (the traversal never consults the hash index
or the pivots), and all three wrappers run over the same freshly created
raw iterator, so independently created iterators are independent values
of the pure model and cannot interfere. -/
theorem c4_iteration_order {K V : Type} (m : ArchivedIndexMap K V)
    (hlen : m.len = m.entries.length) :
    (m.iter.inner.toList = m.entries.map fun e => (e.key, e.value))
    ∧ m.iter.inner.toList.length = m.len
    ∧ (m.keys.inner.toList.map Prod.fst = m.entries.map Entry.key)
    ∧ (m.keys.inner.toList.map Prod.fst).length = m.len
    ∧ (m.values.inner.toList.map Prod.snd = m.entries.map Entry.value)
    ∧ (m.values.inner.toList.map Prod.snd).length = m.len
    ∧ m.iter.inner = m.raw_iter ∧ m.keys.inner = m.raw_iter
    ∧ m.values.inner = m.raw_iter := by
  have hit : m.raw_iter.toList = m.entries.map fun e => (e.key, e.value) :=
    iterList_eq_entries m hlen
  have hkeys : m.raw_iter.toList.map Prod.fst = m.entries.map Entry.key := by
    rw [hit, List.map_map]
    rfl
  have hvals : m.raw_iter.toList.map Prod.snd = m.entries.map Entry.value := by
    rw [hit, List.map_map]
    rfl
  refine ⟨hit, ?_, hkeys, ?_, hvals, ?_, rfl, rfl, rfl⟩
  · rw [show m.iter.inner = m.raw_iter from rfl, hit, List.length_map, hlen]
  · rw [show m.keys.inner = m.raw_iter from rfl, hkeys, List.length_map, hlen]
  · rw [show m.values.inner = m.raw_iter from rfl, hvals, List.length_map, hlen]

/-- Witness for C4 at the concrete sample map. -/
theorem c4_iteration_order_witness :
    (sampleMap.iter.inner.toList
        = sampleMap.entries.map fun e => (e.key, e.value))
    ∧ sampleMap.iter.inner.toList.length = sampleMap.len
    ∧ (sampleMap.keys.inner.toList.map Prod.fst
        = sampleMap.entries.map Entry.key)
    ∧ (sampleMap.keys.inner.toList.map Prod.fst).length = sampleMap.len
    ∧ (sampleMap.values.inner.toList.map Prod.snd
        = sampleMap.entries.map Entry.value)
    ∧ (sampleMap.values.inner.toList.map Prod.snd).length = sampleMap.len
    ∧ sampleMap.iter.inner = sampleMap.raw_iter
    ∧ sampleMap.keys.inner = sampleMap.raw_iter
    ∧ sampleMap.values.inner = sampleMap.raw_iter :=
  c4_iteration_order sampleMap (by decide)

/-- Claim C10: every iterator over an archived map is exact-sized and
fused.  For a raw iterator within bounds (as produced over a valid
archive), `size_hint` returns `(r, Some r)` with r exactly the number of
elements still to be yielded; a `next` that returns `None` leaves the
state unchanged, so every subsequent `next` also returns `None`; a
successful step stays within bounds with exactly one fewer element to
yield; and the `Iter`, `Keys` and `Values` wrappers delegate `next` and
`size_hint` to the raw iterator, so the same holds for all three. -/
theorem c10_iterators_exact_fused {K V : Type} (it : RawIter K V)
    (hv : it.current + it.remaining ≤ it.entries.length) :
    it.size_hint = (it.toList.length, some it.toList.length)
    ∧ ((it.next).1 = none → it.next = (none, it))
    ∧ ((it.next).1 = none → (((it.next).2).next).1 = none)
    ∧ (∀ (p : K × V) (it' : RawIter K V), it.next = (some p, it') →
        it'.current + it'.remaining ≤ it'.entries.length
          ∧ it'.toList.length = it.toList.length - 1)
    ∧ (Iter.size_hint ⟨it⟩ = it.size_hint ∧ Keys.size_hint ⟨it⟩ = it.size_hint
        ∧ Values.size_hint ⟨it⟩ = it.size_hint)
    ∧ (Iter.next ⟨it⟩ = ((it.next).1, ⟨(it.next).2⟩)
        ∧ Keys.next ⟨it⟩ = ((it.next).1.map Prod.fst, ⟨(it.next).2⟩)
        ∧ Values.next ⟨it⟩ = ((it.next).1.map Prod.snd, ⟨(it.next).2⟩)) := by
  have hlen : it.toList.length = it.remaining := it.toList_length_of_valid hv
  have hfused2 : (it.next).1 = none → (((it.next).2).next).1 = none := by
    intro h
    have h2 := it.next_none_fused h
    rw [h2]
    exact h
  have hstep : ∀ (p : K × V) (it' : RawIter K V), it.next = (some p, it') →
      it'.current + it'.remaining ≤ it'.entries.length
        ∧ it'.toList.length = it.toList.length - 1 := by
    intro p it' hst
    have h1 : it.remaining ≠ 0 := by
      intro hr
      rw [RawIter.next, if_pos hr] at hst
      simp at hst
    rw [RawIter.next, if_neg h1] at hst
    cases hc : it.entries[it.current]? with
    | none =>
      rw [hc] at hst
      simp at hst
    | some e =>
      rw [hc] at hst
      simp only [Prod.mk.injEq] at hst
      obtain ⟨-, hit⟩ := hst
      subst hit
      constructor
      · show it.current + 1 + (it.remaining - 1) ≤ it.entries.length
        omega
      · rw [hlen]
        rw [RawIter.toList_length_of_valid]
        show it.current + 1 + (it.remaining - 1) ≤ it.entries.length
        omega
  refine ⟨?_, it.next_none_fused, hfused2, hstep, ⟨rfl, rfl, rfl⟩, ⟨rfl, rfl, rfl⟩⟩
  rw [RawIter.size_hint, hlen]

/-- Witness for C10: a freshly created iterator over the sample map. -/
theorem c10_iterators_exact_fused_witness :
    (sampleMap.raw_iter.size_hint
        = (sampleMap.raw_iter.toList.length, some sampleMap.raw_iter.toList.length))
    ∧ ((sampleMap.raw_iter.next).1 = none
        → sampleMap.raw_iter.next = (none, sampleMap.raw_iter))
    ∧ ((sampleMap.raw_iter.next).1 = none
        → (((sampleMap.raw_iter.next).2).next).1 = none)
    ∧ (∀ (p : Nat × Nat) (it' : RawIter Nat Nat),
        sampleMap.raw_iter.next = (some p, it') →
          it'.current + it'.remaining ≤ it'.entries.length
            ∧ it'.toList.length = sampleMap.raw_iter.toList.length - 1)
    ∧ (Iter.size_hint ⟨sampleMap.raw_iter⟩ = sampleMap.raw_iter.size_hint
        ∧ Keys.size_hint ⟨sampleMap.raw_iter⟩ = sampleMap.raw_iter.size_hint
        ∧ Values.size_hint ⟨sampleMap.raw_iter⟩ = sampleMap.raw_iter.size_hint)
    ∧ (Iter.next ⟨sampleMap.raw_iter⟩
          = ((sampleMap.raw_iter.next).1, ⟨(sampleMap.raw_iter.next).2⟩)
        ∧ Keys.next ⟨sampleMap.raw_iter⟩
          = ((sampleMap.raw_iter.next).1.map Prod.fst, ⟨(sampleMap.raw_iter.next).2⟩)
        ∧ Values.next ⟨sampleMap.raw_iter⟩
          = ((sampleMap.raw_iter.next).1.map Prod.snd, ⟨(sampleMap.raw_iter.next).2⟩)) :=
  c10_iterators_exact_fused sampleMap.raw_iter (by decide)

/-- Claim C5: archived-vs-archived equality is ordered-sequence equality:
a == b holds iff the insertion-ordered (key, value) sequences of the two
maps are equal position by position (which forces equal lengths, since
`Iterator::eq` only succeeds when both sequences end together); and
consequently two archives whose sequences differ by swapping two distinct
pairs compare unequal. -/
theorem c5_archived_eq_ordered {K V : Type} [DecidableEq K] [DecidableEq V]
    (a b : ArchivedIndexMap K V) (l : List (K × V)) (i j : Nat)
    (hil : i < l.length) (hjl : j < l.length) (hij : i ≠ j)
    (hne : l.get ⟨i, hil⟩ ≠ l.get ⟨j, hjl⟩)
    (ha : a.iterList = l)
    (hb : b.iterList = (l.set i (l.get ⟨j, hjl⟩)).set j (l.get ⟨i, hil⟩)) :
    (∀ x y : ArchivedIndexMap K V,
        x.beqArchived y = true ↔ x.iterList = y.iterList)
    ∧ a.beqArchived b = false := by
  have hiff : ∀ x y : ArchivedIndexMap K V,
      x.beqArchived y = true ↔ x.iterList = y.iterList := fun x y =>
    iterPairsEq_eq_true_iff x.iterList y.iterList
  refine ⟨hiff, ?_⟩
  cases hbe : a.beqArchived b with
  | false => rfl
  | true =>
    exfalso
    have hlists : a.iterList = b.iterList := (hiff a b).mp hbe
    rw [ha, hb] at hlists
    have hgi := List.getElem_of_eq hlists hil
    rw [List.getElem_set_ne hij.symm, List.getElem_set_self] at hgi
    exact hne (by rw [List.get_eq_getElem, List.get_eq_getElem]; exact hgi)

/-- A second valid archived map whose first two entries are swapped
relative to the two-entry truncation of the sample data; used by the C5
witness. -/
def swappedMap : ArchivedIndexMap Nat Nat :=
  ⟨⟨fun _ => none, 2⟩, [0, 1], [⟨2, 20⟩, ⟨1, 10⟩]⟩

/-- The two-entry archived map the C5 witness compares against. -/
def twoEntryMap : ArchivedIndexMap Nat Nat :=
  ⟨⟨fun _ => none, 2⟩, [0, 1], [⟨1, 10⟩, ⟨2, 20⟩]⟩

/-- Witness for C5: swapping the two distinct pairs of a concrete
two-entry archive makes the archives compare unequal. -/
theorem c5_archived_eq_ordered_witness :
    (∀ x y : ArchivedIndexMap Nat Nat,
        x.beqArchived y = true ↔ x.iterList = y.iterList)
    ∧ twoEntryMap.beqArchived swappedMap = false :=
  c5_archived_eq_ordered twoEntryMap swappedMap [(1, 10), (2, 20)] 0 1
    (by decide) (by decide) (by decide) (by decide) (by decide) (by decide)

/-- The one-entry archived map whose iteration sequence is a proper
position-by-position prefix of `twoEntrySource`; used for C1. -/
def oneEntryMap : ArchivedIndexMap Nat Nat :=
  ⟨⟨fun _ => none, 1⟩, [0], [⟨1, 10⟩]⟩

/-- A two-pair mutable source map (modelled by its insertion-ordered pair
sequence); used for C1. -/
def twoEntrySource : List (Nat × Nat) := [(1, 10), (2, 20)]

/-- Counterexample to claim C1 as stated: the archived-vs-mutable
comparison of the source declares a one-entry archive equal to a two-pair
mutable map because `zip` truncates to the shorter sequence and no length
check is made, while the claim requires maps of different lengths never
to compare equal. -/
theorem c1_counterexample_length_ignored :
    oneEntryMap.beqIndexMap twoEntrySource = true
      ∧ oneEntryMap.iterList.length ≠ twoEntrySource.length := by
  constructor
  · decide
  · decide

/-- Claim C1 as amended: archived-vs-mutable equality holds iff the two
insertion-ordered sequences agree position by position on every position
where both are defined, i.e. on the first min(len a, len m) positions;
unlike archived-vs-archived equality the lengths are not compared, so a
map whose sequence is a proper prefix of the other's compares equal. -/
theorem c1_mutable_eq_zip_pointwise {K V : Type} [DecidableEq K] [DecidableEq V]
    (a : ArchivedIndexMap K V) (other : List (K × V)) :
    a.beqIndexMap other = true
      ↔ ∀ (i : Nat) (p q : K × V), a.iterList[i]? = some p →
          other[i]? = some q → p.1 = q.1 ∧ p.2 = q.2 := by
  rw [ArchivedIndexMap.beqIndexMap, zip_all_eq_true_iff]
  constructor
  · intro h i p q hp hq
    have := h i p q hp hq
    simpa using this
  · intro h i p q hp hq
    have := h i p q hp hq
    simpa using this

theorem serEntry_ok_iff {K V AK AV E : Type} (serK : K → Except E AK)
    (serV : V → Except E AV) (kv : K × V) (r : AK × AV) :
    serEntry serK serV kv = .ok r ↔ serK kv.1 = .ok r.1 ∧ serV kv.2 = .ok r.2 := by
  rw [serEntry]
  cases hk : serK kv.1 with
  | error e => rw [exbind_error]; simp
  | ok ak =>
    rw [exbind_ok]
    cases hv : serV kv.2 with
    | error e => rw [exbind_error]; simp
    | ok av =>
      rw [exbind_ok]
      cases r
      constructor
      · intro h
        cases h
        exact ⟨rfl, rfl⟩
      · rintro ⟨h1, h2⟩
        cases h1
        cases h2
        rfl

/-- Claim C7: for every archive produced by the serialize protocol, the
pivot array has exactly one element per occupied hash-index slot, written
in slot-occupation order; the j-th pivot equals the insertion position of
the j-th slot-order key in the source map; every pivot value lies in
[0, len(entries)); and dereferencing a slot's pivot yields the entry
whose stored key is (the archived image of) that slot's key. -/
theorem c7_pivot_array_structure {K V AK AV E : Type} [DecidableEq K]
    (bd : (AK → Option Nat) × List K) (serK : K → Except E AK)
    (serV : V → Except E AV) (m : List (K × V)) (a : ArchivedIndexMap AK AV)
    (hres : serializeIndexMap (.ok bd) serK serV m = .ok (some a)) :
    a.pivots.length = bd.2.length
    ∧ a.entries.length = m.length
    ∧ ∀ (j : Nat) (k : K), bd.2[j]? = some k →
        ∃ p : Nat, a.pivots[j]? = some p
          ∧ srcGetIndexOf m k = some p
          ∧ p < a.entries.length
          ∧ ∃ (en : Entry AK AV) (v : V),
              a.entries[p]? = some en ∧ m[p]? = some (k, v)
                ∧ serK k = .ok en.key ∧ serV v = .ok en.value := by
  cases hser : collectResults (serEntry serK serV) m with
  | error er =>
    rw [serializeIndexMap_entries_error bd serK serV m er hser] at hres
    cases hres
  | ok rs =>
    cases hopt : collectOptions (srcGetIndexOf m) bd.2 with
    | none =>
      rw [serializeIndexMap_panic_unfold bd serK serV m rs hser hopt] at hres
      cases hres
    | some ps =>
      rw [serializeIndexMap_ok_unfold bd serK serV m rs ps hser hopt] at hres
      cases hres
      obtain ⟨hrslen, hrspt⟩ := collectResults_ok_pointwise _ m rs hser
      obtain ⟨hpslen, hpspt⟩ := collectOptions_some_pointwise _ bd.2 ps hopt
      have hentlen : (rs.map fun r => Entry.mk r.1 r.2).length = m.length := by
        rw [List.length_map, hrslen]
      refine ⟨hpslen, hentlen, fun j k hj => ?_⟩
      obtain ⟨p, hp, hsrc⟩ := hpspt j k hj
      obtain ⟨v, hv⟩ := srcGetIndexOf_getElem m k p hsrc
      obtain ⟨r, hr, hser'⟩ := hrspt p (k, v) hv
      obtain ⟨hk, hv'⟩ := (serEntry_ok_iff serK serV (k, v) r).mp hser'
      refine ⟨p, hp, hsrc, ?_, ⟨r.1, r.2⟩, v, ?_, hv, hk, hv'⟩
      · rw [hentlen]
        exact srcGetIndexOf_lt m k p hsrc
      · rw [List.getElem?_map, hr]
        rfl

/-- The insertion-ordered pair sequence of the concrete source map behind
`sampleMap`. -/
def sampleSource : List (Nat × Nat) := [(1, 10), (2, 20), (3, 40), (4, 80)]

/-- The slot-occupation order of `sampleIndexFn` (slot s holds the key k
with sampleIndexFn k = some s). -/
def sampleSlotOrder : List Nat := [3, 1, 4, 2]

/-- Witness for C7: serializing the concrete source map with the sample
hash index yields exactly `sampleMap`, whose pivots satisfy the claim. -/
theorem c7_pivot_array_structure_witness :
    sampleMap.pivots.length = ((sampleIndexFn, sampleSlotOrder)).2.length
    ∧ sampleMap.entries.length = sampleSource.length
    ∧ ∀ (j : Nat) (k : Nat), ((sampleIndexFn, sampleSlotOrder)).2[j]? = some k →
        ∃ p : Nat, sampleMap.pivots[j]? = some p
          ∧ srcGetIndexOf sampleSource k = some p
          ∧ p < sampleMap.entries.length
          ∧ ∃ (en : Entry Nat Nat) (v : Nat),
              sampleMap.entries[p]? = some en ∧ sampleSource[p]? = some (k, v)
                ∧ (fun k : Nat => (Except.ok k : Except Unit Nat)) k = .ok en.key
                ∧ (fun v : Nat => (Except.ok v : Except Unit Nat)) v = .ok en.value :=
  c7_pivot_array_structure (sampleIndexFn, sampleSlotOrder)
    (fun k : Nat => (Except.ok k : Except Unit Nat))
    (fun v : Nat => (Except.ok v : Except Unit Nat))
    sampleSource sampleMap rfl

/-- Claim C9: under the collaborator contract that `build_and_serialize`
enumerates only keys of the source map, every slot-order key has an
insertion position, so the `get_index_of(key).unwrap()` in the
pivot-writing loop never panics (the panic outcome, modelled by
`.ok none`, is unreachable). -/
theorem c9_pivot_unwrap_never_panics {K V AK AV E : Type} [DecidableEq K]
    (bd : (AK → Option Nat) × List K) (serK : K → Except E AK)
    (serV : V → Except E AV) (m : List (K × V))
    (hmem : ∀ k, k ∈ bd.2 → k ∈ m.map Prod.fst) :
    (∀ k, k ∈ bd.2 → ∃ i, srcGetIndexOf m k = some i)
    ∧ (∃ ps, collectOptions (srcGetIndexOf m) bd.2 = some ps)
    ∧ serializeIndexMap (.ok bd) serK serV m ≠ .ok none := by
  have hsome : ∀ k, k ∈ bd.2 → ∃ i, srcGetIndexOf m k = some i :=
    fun k hk => srcGetIndexOf_isSome_of_mem m k (hmem k hk)
  obtain ⟨ps, hps⟩ := collectOptions_some_of_all (srcGetIndexOf m) bd.2 hsome
  refine ⟨hsome, ⟨ps, hps⟩, ?_⟩
  cases hser : collectResults (serEntry serK serV) m with
  | error er =>
    rw [serializeIndexMap_entries_error bd serK serV m er hser]
    intro h
    cases h
  | ok rs =>
    rw [serializeIndexMap_ok_unfold bd serK serV m rs ps hser hps]
    intro h
    cases h

/-- Witness for C9 at the concrete sample data. -/
theorem c9_pivot_unwrap_never_panics_witness :
    (∀ k, k ∈ ((sampleIndexFn, sampleSlotOrder)).2 →
        ∃ i, srcGetIndexOf sampleSource k = some i)
    ∧ (∃ ps, collectOptions (srcGetIndexOf sampleSource)
        ((sampleIndexFn, sampleSlotOrder)).2 = some ps)
    ∧ serializeIndexMap (.ok (sampleIndexFn, sampleSlotOrder))
        (fun k : Nat => (Except.ok k : Except Unit Nat))
        (fun v : Nat => (Except.ok v : Except Unit Nat))
        sampleSource ≠ .ok none :=
  c9_pivot_unwrap_never_panics (sampleIndexFn, sampleSlotOrder) _ _ sampleSource
    (by decide)

/-- Claim C2: the round-trip law.  For every source map with unique keys,
serializing (with element serializers and deserializers that invert each
other, and a hash-index collaborator that enumerates only the map's keys)
and then deserializing the resulting archive yields exactly the original
map: same length, same keys in insertion order, each key with its
original value. -/
theorem c2_roundtrip {K V AK AV E : Type} [DecidableEq K]
    (idxF : AK → Option Nat) (slotOrder : List K)
    (serK : K → Except E AK) (serV : V → Except E AV)
    (deK : AK → Except E K) (deV : AV → Except E V)
    (fK : K → AK) (fV : V → AV) (m : List (K × V))
    (hnd : (m.map Prod.fst).Nodup)
    (hmem : ∀ k, k ∈ slotOrder → k ∈ m.map Prod.fst)
    (hserK : ∀ k, serK k = .ok (fK k)) (hserV : ∀ v, serV v = .ok (fV v))
    (hdeK : ∀ k, deK (fK k) = .ok k) (hdeV : ∀ v, deV (fV v) = .ok v) :
    ∃ a : ArchivedIndexMap AK AV,
      serializeIndexMap (.ok (idxF, slotOrder)) serK serV m = .ok (some a)
        ∧ a.deserialize deK deV = .ok m := by
  have hser : collectResults (serEntry serK serV) m
      = .ok (m.map fun kv => (fK kv.1, fV kv.2)) := by
    refine collectResults_map_ok _ _ (fun kv => ?_) m
    rw [serEntry, hserK, exbind_ok, hserV, exbind_ok]
    rfl
  obtain ⟨ps, hps⟩ := collectOptions_some_of_all (srcGetIndexOf m) slotOrder
    (fun k hk => srcGetIndexOf_isSome_of_mem m k (hmem k hk))
  refine ⟨⟨⟨idxF, m.length⟩, ps,
      (m.map fun kv => (fK kv.1, fV kv.2)).map fun r => Entry.mk r.1 r.2⟩,
    serializeIndexMap_ok_unfold (idxF, slotOrder) serK serV m _ ps hser hps, ?_⟩
  rw [ArchivedIndexMap.deserialize]
  rw [iterList_eq_entries _ (by simp [ArchivedIndexMap.len])]
  show deserializeLoop deK deV
      (((m.map fun kv => (fK kv.1, fV kv.2)).map fun r => Entry.mk r.1 r.2).map
        fun e => (e.key, e.value)) [] = .ok m
  have hshape : ((m.map fun kv => (fK kv.1, fV kv.2)).map fun r => Entry.mk r.1 r.2).map
      (fun e : Entry AK AV => (e.key, e.value))
      = m.map fun kv => (fK kv.1, fV kv.2) := by
    rw [List.map_map, List.map_map]
    rfl
  rw [hshape]
  have := deserializeLoop_ok deK deV fK fV hdeK hdeV m [] (by simpa using hnd)
  simpa using this

/-- Witness for C2: the round trip of the concrete four-entry source map
through the sample hash index with identity element archiving. -/
theorem c2_roundtrip_witness :
    ∃ a : ArchivedIndexMap Nat Nat,
      serializeIndexMap (.ok (sampleIndexFn, sampleSlotOrder))
          (fun k : Nat => (Except.ok k : Except Unit Nat))
          (fun v : Nat => (Except.ok v : Except Unit Nat))
          sampleSource = .ok (some a)
        ∧ a.deserialize (fun k : Nat => (Except.ok k : Except Unit Nat))
            (fun v : Nat => (Except.ok v : Except Unit Nat)) = .ok sampleSource :=
  c2_roundtrip sampleIndexFn sampleSlotOrder _ _ _ _
    (fun k => k) (fun v => v) sampleSource
    (by decide) (by decide)
    (fun _ => rfl) (fun _ => rfl) (fun _ => rfl) (fun _ => rfl)

/-- Claim C8: serialization and deserialization are atomic with respect
to failure.  If the entries before position i all serialize but entry i's
key-or-value serialization fails with error e, `serialize` returns
exactly that first error (and by its type produces no archive); if the
archived pairs before position i all deserialize but pair i fails with
error e, `deserialize` returns exactly that first error (and by its type
returns no partially populated map). -/
theorem c8_first_error_aborts {K V AK AV E : Type} [DecidableEq K]
    (bd : (AK → Option Nat) × List K) (serK : K → Except E AK)
    (serV : V → Except E AV) (m : List (K × V)) (i : Nat) (e : E)
    (a : ArchivedIndexMap AK AV) (deK : AK → Except E K)
    (deV : AV → Except E V) (i' : Nat) (e' : E)
    (hpre : exOk (collectResults (serEntry serK serV) (m.take i)) = true)
    (hfail : (m[i]?).map (serEntry serK serV) = some (.error e))
    (hpre' : exOk (collectResults (deEntry deK deV) (a.iterList.take i')) = true)
    (hfail' : (a.iterList[i']?).map (deEntry deK deV) = some (.error e')) :
    serializeIndexMap (.ok bd) serK serV m = .error e
    ∧ a.deserialize deK deV = .error e' := by
  constructor
  · rw [Option.map_eq_some'] at hfail
    obtain ⟨kv, hkv, hkv'⟩ := hfail
    exact serializeIndexMap_entries_error bd serK serV m e
      (collectResults_error_at _ m i kv e hpre hkv hkv')
  · rw [Option.map_eq_some'] at hfail'
    obtain ⟨kv, hkv, hkv'⟩ := hfail'
    rw [ArchivedIndexMap.deserialize]
    exact deserializeLoop_error_at deK deV a.iterList i' kv e' [] hpre' hkv hkv'

/-- Witness for C8: a key serializer that fails on key 2 (position 1 of
the concrete source) and a key deserializer that fails on archived key 3
(position 2 of the sample archive); both runs surface exactly that first
error. -/
theorem c8_first_error_aborts_witness :
    serializeIndexMap (.ok (sampleIndexFn, sampleSlotOrder))
        (fun k : Nat => if k = 2 then .error 3 else (Except.ok k : Except Nat Nat))
        (fun v : Nat => (Except.ok v : Except Nat Nat))
        sampleSource = .error 3
    ∧ sampleMap.deserialize
        (fun k : Nat => if k = 3 then .error 7 else (Except.ok k : Except Nat Nat))
        (fun v : Nat => (Except.ok v : Except Nat Nat)) = .error 7 :=
  c8_first_error_aborts (sampleIndexFn, sampleSlotOrder)
    (fun k : Nat => if k = 2 then .error 3 else (Except.ok k : Except Nat Nat))
    (fun v : Nat => (Except.ok v : Except Nat Nat))
    sampleSource 1 3 sampleMap
    (fun k : Nat => if k = 3 then .error 7 else (Except.ok k : Except Nat Nat))
    (fun v : Nat => (Except.ok v : Except Nat Nat))
    2 7 (by decide) rfl (by decide) rfl

/-- Claim C3: all keyed accessors route through the single `find` lookup:
`contains_key` is exactly `get`-presence, `get_index_of` is `find`
itself, `get_key_value` is the projection of `get_full`, and `get_full`
is `find` composed with positional access; when the hash index offers no
candidate slot the result is a miss, and when it offers a slot whose
dereferenced entry stores a different key the result is likewise a miss
(None/false, never an error — the model's types have no error outcome);
and whenever `get_index_of k` returns Some i, i is exactly the position
of k in the `iter()` key sequence. -/
theorem c3_lookup_single_routine {K V : Type} [DecidableEq K]
    (m : ArchivedIndexMap K V) (k : K)
    (hlen : m.len = m.entries.length)
    (hnd : (m.entries.map Entry.key).Nodup) :
    (m.contains_key k = (m.get k).isSome)
    ∧ (m.get_index_of k = m.find k)
    ∧ (m.get_key_value k = (m.get_full k).map fun t => (t.2.1, t.2.2))
    ∧ (m.get_full k
        = (m.find k).bind fun i => (m.get_index i).map fun p => (i, p.1, p.2))
    ∧ (m.index.index k = none →
        m.find k = none ∧ m.get k = none ∧ m.contains_key k = false)
    ∧ (∀ (s : Nat) (e : Entry K V), m.index.index k = some s →
        m.entry? (m.pivot s) = some e → e.key ≠ k →
        m.find k = none ∧ m.get k = none ∧ m.contains_key k = false)
    ∧ (∀ i : Nat, m.get_index_of k = some i →
        (m.iterList.map Prod.fst)[i]? = some k
          ∧ ∀ j : Nat, (m.iterList.map Prod.fst)[j]? = some k → j = i) := by
  have hmapid : m.get_index_of k = m.find k := by
    rw [ArchivedIndexMap.get_index_of]
    cases m.find k <;> rfl
  have hentry : ∀ i : Nat, m.find k = some i →
      ∃ e, m.entry? i = some e ∧ e.key = k := by
    intro i hf
    obtain ⟨s, _, _, e, he, hk⟩ := (find_eq_some_iff m k i).mp hf
    exact ⟨e, he, hk⟩
  refine ⟨?_, hmapid, ?_, ?_, ?_, ?_, ?_⟩
  · cases hf : m.find k with
    | none => rw [ArchivedIndexMap.contains_key, ArchivedIndexMap.get, hf]; rfl
    | some i =>
      obtain ⟨e, he, _⟩ := hentry i hf
      rw [ArchivedIndexMap.contains_key, ArchivedIndexMap.get, hf, Option.some_bind,
        he]
      rfl
  · cases hf : m.find k with
    | none =>
      rw [ArchivedIndexMap.get_key_value, ArchivedIndexMap.get_full, hf]
      rfl
    | some i =>
      rw [ArchivedIndexMap.get_key_value, ArchivedIndexMap.get_full, hf,
        Option.some_bind, Option.some_bind]
      cases he : m.entry? i <;> rfl
  · cases hf : m.find k with
    | none => rw [ArchivedIndexMap.get_full, hf]; rfl
    | some i =>
      obtain ⟨e, he, _⟩ := hentry i hf
      have hi : i < m.len := by
        rw [hlen]
        by_contra hcon
        rw [ArchivedIndexMap.entry?, List.getElem?_eq_none (by omega)] at he
        cases he
      rw [ArchivedIndexMap.get_full, hf, Option.some_bind, Option.some_bind,
        ArchivedIndexMap.get_index, if_pos hi, he]
      rfl
  · intro hs
    have hf := find_eq_none_of_index_none m k hs
    exact ⟨hf, by rw [ArchivedIndexMap.get, hf]; rfl,
      by rw [ArchivedIndexMap.contains_key, hf]; rfl⟩
  · intro s e hs he hne
    have hf := find_eq_none_of_key_ne m k s e hs he hne
    exact ⟨hf, by rw [ArchivedIndexMap.get, hf]; rfl,
      by rw [ArchivedIndexMap.contains_key, hf]; rfl⟩
  · intro i hio
    rw [hmapid] at hio
    exact find_position m k i hlen hnd hio

/-- Witness for C3 at the concrete sample map and the present key 2. -/
theorem c3_lookup_single_routine_witness :
    (sampleMap.contains_key 2 = (sampleMap.get 2).isSome)
    ∧ (sampleMap.get_index_of 2 = sampleMap.find 2)
    ∧ (sampleMap.get_key_value 2
        = (sampleMap.get_full 2).map fun t => (t.2.1, t.2.2))
    ∧ (sampleMap.get_full 2
        = (sampleMap.find 2).bind fun i =>
            (sampleMap.get_index i).map fun p => (i, p.1, p.2))
    ∧ (sampleMap.index.index 2 = none →
        sampleMap.find 2 = none ∧ sampleMap.get 2 = none
          ∧ sampleMap.contains_key 2 = false)
    ∧ (∀ (s : Nat) (e : Entry Nat Nat), sampleMap.index.index 2 = some s →
        sampleMap.entry? (sampleMap.pivot s) = some e → e.key ≠ 2 →
        sampleMap.find 2 = none ∧ sampleMap.get 2 = none
          ∧ sampleMap.contains_key 2 = false)
    ∧ (∀ i : Nat, sampleMap.get_index_of 2 = some i →
        (sampleMap.iterList.map Prod.fst)[i]? = some 2
          ∧ ∀ j : Nat, (sampleMap.iterList.map Prod.fst)[j]? = some 2 → j = i) :=
  c3_lookup_single_routine sampleMap 2 (by decide) (by decide)
